import Mathlib

/-!
Verification of the big-brain utility-AI decision layer.

This development is a shallow embedding of the core state machines and pure
computations of the repository: the `ActionState` lifecycle, the `Steps` and
`Concurrently` composite-action systems (`src/actions.rs`), the thinker
cancellation and action-resolution logic (`src/thinker.rs`), the pickers
(`src/pickers.rs`), the measures (`src/measures.rs`) and the scorer update
systems (`src/scorers.rs`).

Floating-point scores are modelled as rationals: every comparison and
arithmetic operation performed by the code on the values relevant here is
exact in binary floating point, and no NaN can arise on the embedded paths.
Bevy entity mutation is modelled by explicit state passing: each system
becomes a pure function from the states it reads to the states it writes,
plus booleans recording spawn/despawn commands it issues.
-/

namespace BigBrain

/-- The `ActionState` enum from `src/actions.rs`: the six lifecycle states
of an Action. -/
inductive ActionState where
  | init
  | requested
  | executing
  | cancelled
  | success
  | failure
deriving DecidableEq, Repr

/-! ## Measures (`src/measures.rs`) -/

/-- `WeightedSum::calculate`: fold over `(score, weight)` pairs starting at
`0.0`, accumulating `acc + score * weight`. -/
def weightedSumCalculate (scores : List (ℚ × ℚ)) : ℚ :=
  scores.foldl (fun acc sw => acc + sw.1 * sw.2) 0

/-- `WeightedProduct::calculate`: fold over `(score, weight)` pairs starting
at `0.0` (sic — the source initialises the fold accumulator with `0f32`),
accumulating `acc * score * weight`. -/
def weightedProductCalculate (scores : List (ℚ × ℚ)) : ℚ :=
  scores.foldl (fun acc sw => acc * sw.1 * sw.2) 0

/-- `ChebyshevDistance::calculate`: fold starting at `0.0`, taking
`max (score * weight) best`. -/
def chebyshevCalculate (scores : List (ℚ × ℚ)) : ℚ :=
  scores.foldl (fun best sw => max (sw.1 * sw.2) best) 0

/-! ## Score storage (`src/scorers.rs`) -/

/-- The crate-private `clamp` from `src/evaluators.rs`: clamp `val` to
`[lo, hi]` (first the upper bound, then the lower bound). On the inputs used
here it agrees with `f32::clamp`. -/
def clampVal (val lo hi : ℚ) : ℚ :=
  let v := if val > hi then hi else val
  if v < lo then lo else v

/-- `Score::set`: stores `value` when `(0.0..=1.0).contains(&value)`, and
panics otherwise. The panic is modelled as `none`. -/
def scoreSet (value : ℚ) : Option ℚ :=
  if 0 ≤ value ∧ value ≤ 1 then some value else none

/-! ## Scorer update systems (`src/scorers.rs`)

Each system is embedded as a pure function from the child scores it reads to
the value it stores into the composite's `Score` via `Score::set` (an
`Option ℚ`, `none` meaning the `Score::set` panic). -/

/-- `fixed_score_system`: stores the configured constant via `Score::set`
with no clamping. -/
def fixedScoreStore (fixed : ℚ) : Option ℚ :=
  scoreSet fixed

/-- The loop of `all_or_nothing_system`: sum the children, but if any child
score is `< threshold`, set the sum to `0.0` and break. -/
def allOrNothingSum (threshold : ℚ) : List ℚ → ℚ → ℚ
  | [], acc => acc
  | s :: rest, acc =>
    if s < threshold then 0 else allOrNothingSum threshold rest (acc + s)

/-- `all_or_nothing_system`: the loop above, then `set (clamp sum 0 1)`. -/
def allOrNothingStore (threshold : ℚ) (children : List ℚ) : Option ℚ :=
  scoreSet (clampVal (allOrNothingSum threshold children 0) 0 1)

/-- `sum_of_scorers_system`: sum all children; zero the sum if it is below
the threshold; then `set (clamp sum 0 1)`. -/
def sumOfScorersStore (threshold : ℚ) (children : List ℚ) : Option ℚ :=
  let sum := children.foldl (· + ·) 0
  let sum := if sum < threshold then 0 else sum
  scoreSet (clampVal sum 0 1)

/-- The value computed by `product_of_scorers_system`: product of the
children; optional compensation factor
`product + ((1 - product) * (1 - 1/n)) * product` when compensation is on and
the product is `< 1`; zero if below threshold; clamped to `[0, 1]`. -/
def productOfScorersCompute (threshold : ℚ) (useCompensation : Bool)
    (children : List ℚ) : ℚ :=
  let product := children.foldl (· * ·) 1
  let numScorers : ℚ := children.length
  let product :=
    if useCompensation = true ∧ product < 1 then
      let modFactor := 1 - 1 / numScorers
      let makeup := (1 - product) * modFactor
      product + makeup * product
    else product
  let product := if product < threshold then 0 else product
  clampVal product 0 1

/-- `product_of_scorers_system`: stores the computed value via `Score::set`. -/
def productOfScorersStore (threshold : ℚ) (useCompensation : Bool)
    (children : List ℚ) : Option ℚ :=
  scoreSet (productOfScorersCompute threshold useCompensation children)

/-- Insertion into a sorted list, used to model `sort_by` in
`winning_scorer_system` (ascending order; any correct ascending sort yields
the same `last()` element). -/
def insertSorted (x : ℚ) : List ℚ → List ℚ
  | [] => [x]
  | y :: rest => if x ≤ y then x :: y :: rest else y :: insertSorted x rest

/-- Ascending sort of the child scores, modelling
`all_scores.sort_by(partial_cmp)`. -/
def sortScores : List ℚ → List ℚ
  | [] => []
  | x :: rest => insertSorted x (sortScores rest)

/-- `winning_scorer_system`: sort the child scores ascending and take the
last (the maximum), or `0.0` when there are no children; zero it when below
the threshold; then `set (clamp winning 0 1)`. -/
def winningScorerStore (threshold : ℚ) (children : List ℚ) : Option ℚ :=
  let winning :=
    match (sortScores children).getLast? with
    | some s => if s < threshold then 0 else s
    | none => 0
  scoreSet (clampVal winning 0 1)

/-- `evaluating_scorer_system`: applies the (arbitrary, user-supplied)
evaluator to the inner child score and stores `set (clamp result 0 1)`. -/
def evaluatingScorerStore (evaluate : ℚ → ℚ) (innerScore : ℚ) : Option ℚ :=
  scoreSet (clampVal (evaluate innerScore) 0 1)

/-- `measured_scorers_system`: applies the (arbitrary, user-supplied)
measure to the weighted child scores; stores `set 0` when the measured score
is below the threshold, and `set (clamp measured 0 1)` otherwise. -/
def measuredScorerStore (measure : List (ℚ × ℚ) → ℚ) (threshold : ℚ)
    (children : List (ℚ × ℚ)) : Option ℚ :=
  let measured := measure children
  if measured < threshold then scoreSet 0
  else scoreSet (clampVal measured 0 1)

/-! ## The `Steps` composite action (`steps_system` in `src/actions.rs`)

A `Steps` action holds the list of step builders (modelled by its length),
the index of the active step and the active step's entity. One pass of
`steps_system` over one `Steps` entity reads the parent's `ActionState` and
the active child's `ActionState` and updates them; it may also despawn the
active child and spawn the next step (which `spawn_action` creates in state
`Init`). -/

/-- The per-entity state read and written by `steps_system`. -/
structure StepsState where
  parent : ActionState
  activeStep : Nat
  numSteps : Nat
  child : ActionState
deriving DecidableEq, Repr

/-- The effect of one `steps_system` pass on one `Steps` entity: the new
state, whether the next step was spawned, and whether the active child was
despawned. -/
structure StepsEffect where
  state : StepsState
  spawnedNext : Bool
  despawnedChild : Bool
deriving DecidableEq, Repr

/-- One pass of `steps_system` over a single `Steps` entity, translated
arm-by-arm from the `match current_state` in `src/actions.rs`. -/
def stepsTick (s : StepsState) : StepsEffect :=
  match s.parent with
  | .requested =>
    { state := { s with child := .requested, parent := .executing }
      spawnedNext := false, despawnedChild := false }
  | .executing =>
    match s.child with
    | .init =>
      { state := { s with child := .requested }
        spawnedNext := false, despawnedChild := false }
    | .executing => { state := s, spawnedNext := false, despawnedChild := false }
    | .requested => { state := s, spawnedNext := false, despawnedChild := false }
    | .cancelled => { state := s, spawnedNext := false, despawnedChild := false }
    | .failure =>
      { state := { s with parent := .failure }
        spawnedNext := false, despawnedChild := true }
    | .success =>
      if s.activeStep == s.numSteps - 1 then
        { state := { s with parent := .success }
          spawnedNext := false, despawnedChild := true }
      else
        { state := { s with activeStep := s.activeStep + 1, child := .init }
          spawnedNext := true, despawnedChild := true }
  | .cancelled =>
    if s.child = .requested ∨ s.child = .executing then
      { state := { s with child := .cancelled }
        spawnedNext := false, despawnedChild := false }
    else if s.child = .failure ∨ s.child = .success then
      { state := { s with parent := s.child }
        spawnedNext := false, despawnedChild := false }
    else { state := s, spawnedNext := false, despawnedChild := false }
  | _ => { state := s, spawnedNext := false, despawnedChild := false }

/-- Iterating `steps_system` passes (the state part only). -/
def stepsIter : Nat → StepsState → StepsState
  | 0, s => s
  | n + 1, s => stepsIter n (stepsTick s).state

/-! ## The `Concurrently` composite action (`concurrent_system` in
`src/actions.rs`)

The composite holds a list of child action entities; a pass reads the
composite's `ActionState` and the children's `ActionState`s, and updates
them. The children are modelled as the list of their `ActionState`s in
authoring order. -/

/-- The first loop of the `Executing` arm of `concurrent_system`: walks the
children in order, tracking `all_success` and `failed_idx` and cancelling
non-terminal children seen after a failure. Returns the updated children,
the final `all_success` and the final `failed_idx`. -/
def concExecLoop : List ActionState → Nat → Bool → Option Nat →
    List ActionState × Bool × Option Nat
  | [], _, allSuccess, failedIdx => ([], allSuccess, failedIdx)
  | s :: rest, idx, allSuccess, failedIdx =>
    match s with
    | .failure =>
      let r := concExecLoop rest (idx + 1) false (some idx)
      (.failure :: r.1, r.2)
    | .success =>
      let r := concExecLoop rest (idx + 1) allSuccess failedIdx
      (.success :: r.1, r.2)
    | s =>
      let s' := if failedIdx.isSome then ActionState.cancelled else s
      let r := concExecLoop rest (idx + 1) false failedIdx
      (s' :: r.1, r.2)

/-- The mapping applied by the second loop of the `Executing` arm (and by
the first loop, past a failure): `Failure`/`Success` are kept, everything
else is set to `Cancelled`. -/
def cancelNonTerminal (s : ActionState) : ActionState :=
  match s with
  | .success => .success
  | .failure => .failure
  | _ => .cancelled

/-- The `Executing` arm of `concurrent_system`: the first loop, then, when
all children succeeded, the composite becomes `Success`; when some child
failed, the second loop cancels the not-yet-settled children before the
failure index (`iter().take(idx)`) and the composite becomes `Cancelled`;
otherwise nothing changes. Returns (new composite state, new children). -/
def concExecStep (children : List ActionState) : ActionState × List ActionState :=
  let r := concExecLoop children 0 true none
  if r.2.1 then (.success, r.1)
  else
    match r.2.2 with
    | some idx =>
      (.cancelled, (r.1.take idx).map cancelNonTerminal ++ r.1.drop idx)
    | none => (.executing, r.1)

/-- The loop of the `Cancelled` arm of `concurrent_system`: `Init` and
`Success` children are left alone, `Failure` sets `any_failed`, everything
else clears `all_done` and is set to `Cancelled`. Returns the updated
children, `all_done` and `any_failed`. -/
def concCancLoop : List ActionState → Bool → Bool →
    List ActionState × Bool × Bool
  | [], allDone, anyFailed => ([], allDone, anyFailed)
  | s :: rest, allDone, anyFailed =>
    match s with
    | .init =>
      let r := concCancLoop rest allDone anyFailed
      (.init :: r.1, r.2)
    | .success =>
      let r := concCancLoop rest allDone anyFailed
      (.success :: r.1, r.2)
    | .failure =>
      let r := concCancLoop rest allDone true
      (.failure :: r.1, r.2)
    | _ =>
      let r := concCancLoop rest false anyFailed
      (.cancelled :: r.1, r.2)

/-- The mapping the `Cancelled` arm applies to each child: `Init`,
`Success` and `Failure` are kept, `Requested`/`Executing`/`Cancelled` are
set to `Cancelled`. -/
def cancelActive (s : ActionState) : ActionState :=
  match s with
  | .init => .init
  | .success => .success
  | .failure => .failure
  | _ => .cancelled

/-- The `Cancelled` arm of `concurrent_system`: run the loop; if every
child was already settled (`all_done`), the composite becomes `Failure` when
any child failed and `Success` otherwise; else it stays `Cancelled`. -/
def concCancStep (children : List ActionState) : ActionState × List ActionState :=
  let r := concCancLoop children true false
  if r.2.1 then ((if r.2.2 then ActionState.failure else .success), r.1)
  else (.cancelled, r.1)

/-- One pass of `concurrent_system` over a single `Concurrently` entity:
`Requested` requests every child and starts executing; `Executing` and
`Cancelled` are the two arms above; `Init`/`Success`/`Failure` do nothing. -/
def concurrentStep (parent : ActionState) (children : List ActionState) :
    ActionState × List ActionState :=
  match parent with
  | .requested => (.executing, children.map fun _ => .requested)
  | .executing => concExecStep children
  | .cancelled => concCancStep children
  | p => (p, children)

/-! ## The Thinker (`src/thinker.rs`) -/

/-- The outcome of the `ActionState::Cancelled` arm of `thinker_system` for
one Thinker: the thinker's own new `ActionState`, the current-action slot
afterwards (carrying the current action's `ActionState`), and whether the
current action entity was despawned. -/
structure ThinkerCancelOut where
  thinkerState : ActionState
  current : Option ActionState
  despawned : Bool
deriving DecidableEq, Repr

/-- The `ActionState::Cancelled` arm of `thinker_system`
(`src/thinker.rs`): when a current action exists and is already
`Success`/`Failure`, it is despawned and the slot cleared (the thinker's own
state is left as written, i.e. still `Cancelled`); when it is already
`Cancelled`, nothing happens; otherwise (`Init`/`Requested`/`Executing`) the
action is set to `Cancelled`. With no current action the thinker resolves to
`Success`. -/
def thinkerCancelledTick (current : Option ActionState) : ThinkerCancelOut :=
  match current with
  | some st =>
    match st with
    | .success =>
      { thinkerState := .cancelled, current := none, despawned := true }
    | .failure =>
      { thinkerState := .cancelled, current := none, despawned := true }
    | .cancelled =>
      { thinkerState := .cancelled, current := some .cancelled, despawned := false }
    | _ =>
      { thinkerState := .cancelled, current := some .cancelled, despawned := false }
  | none => { thinkerState := .success, current := none, despawned := false }

/-- The Thinker's current-action slot as stored in
`Thinker::current_action`: the action entity, the identity of the
`ActionBuilderWrapper`'s id `Arc` (pointer identity, modelled as a `Nat`),
and the action's `ActionState`. -/
structure CurrentAction where
  ent : Nat
  builderId : Nat
  astate : ActionState
deriving DecidableEq, Repr

/-- The outcome of `exec_picked_action`: the current-action slot afterwards,
whether a new action was spawned, and whether the previous action entity was
despawned. -/
structure ExecPickedOut where
  current : Option CurrentAction
  spawned : Bool
  despawnedPrev : Bool
deriving DecidableEq, Repr

/-- `exec_picked_action` (`src/thinker.rs`): given the current-action slot,
the picked builder's id-`Arc` identity and the `override_current` flag.
A freshly spawned action entity (`spawn_action`) starts in state `Init`
and is recorded in the slot together with the picked builder identity. -/
def execPickedAction (current : Option CurrentAction) (pickedId : Nat)
    (overrideCurrent : Bool) (freshEnt : Nat) : ExecPickedOut :=
  match current with
  | some c =>
    let previousDone := c.astate = .success ∨ c.astate = .failure
    if (¬c.builderId = pickedId ∧ overrideCurrent = true) ∨ previousDone then
      match c.astate with
      | .executing =>
        { current := some { c with astate := .cancelled }
          spawned := false, despawnedPrev := false }
      | .requested =>
        { current := some { c with astate := .cancelled }
          spawned := false, despawnedPrev := false }
      | .cancelled =>
        { current := some c, spawned := false, despawnedPrev := false }
      | _ =>
        { current := some { ent := freshEnt, builderId := pickedId, astate := .init }
          spawned := true, despawnedPrev := true }
    else
      if c.astate = .init then
        { current := some { c with astate := .requested }
          spawned := false, despawnedPrev := false }
      else { current := some c, spawned := false, despawnedPrev := false }
  | none =>
    { current := some { ent := freshEnt, builderId := pickedId, astate := .init }
      spawned := true, despawnedPrev := false }

/-! ## Pickers (`src/pickers.rs`) -/

/-- The fold inside `Highest::pick`: walks the choices (modelled by their
scores, in authoring order) carrying the running `max_score` (initially
`0.0`) and the accumulator; a choice whose score is `<= max_score` or
`<= 0.0` is skipped, otherwise it becomes the new accumulator and its score
the new maximum. The accumulator holds the index of the chosen choice. -/
def highestAux : List ℚ → Nat → ℚ → Option Nat → Option Nat
  | [], _, _, acc => acc
  | s :: rest, idx, maxScore, acc =>
    if s ≤ maxScore ∨ s ≤ 0 then highestAux rest (idx + 1) maxScore acc
    else highestAux rest (idx + 1) s (some idx)

/-- `Highest::pick`, returning the index of the picked choice. -/
def highestPick (scores : List ℚ) : Option Nat :=
  highestAux scores 0 0 none

/-! ## The thinker pass cursor (`thinker_system` in `src/thinker.rs`)

`thinker_system` iterates `thinker_q.iter_mut().skip(iterations.index)`,
incrementing the persistent `iterations.index` for each Thinker processed.
After each Thinker, when `index % 500 == 0` and the elapsed wall-clock time
exceeds the budget, the system returns early (keeping the index); when the
loop completes, the index is reset to `0`. The wall-clock test is modelled
by an arbitrary predicate `stop` of the cumulative index. -/

/-- The loop of one `thinker_system` invocation, structurally recursive on
the number `fuel` of Thinkers remaining past the cursor `i`: after
processing position `i` the cumulative index is `i + 1`; the early return
fires when `(i + 1) % 500 == 0` and the wall-clock test `stop` holds, and
keeps the cursor at `i + 1`; a completed loop resets the cursor to `0`. -/
def thinkerPassGo (stop : Nat → Bool) : Nat → Nat → List Nat × Nat
  | 0, _ => ([], 0)
  | fuel + 1, i =>
    if (i + 1) % 500 = 0 ∧ stop (i + 1) = true then ([i], i + 1)
    else
      let r := thinkerPassGo stop fuel (i + 1)
      (i :: r.1, r.2)

/-- One invocation of `thinker_system` starting with cursor `i` over `N`
Thinkers (the query skips the first `i`, so `N - i` remain): returns the
list of Thinker positions visited this tick and the cursor left behind
(`0` when the loop completed). -/
def thinkerPass (stop : Nat → Bool) (N : Nat) (i : Nat) : List Nat × Nat :=
  thinkerPassGo stop (N - i) i

/-- The cursor across successive ticks, with a possibly different wall-clock
behaviour (`stops t`) on each tick `t`, starting from cursor `0`. -/
def cursorSeq (stops : Nat → Nat → Bool) (N : Nat) : Nat → Nat
  | 0 => 0
  | t + 1 => (thinkerPass (stops t) N (cursorSeq stops N t)).2

/-- The Thinker positions visited on tick `t`. -/
def visitedAt (stops : Nat → Nat → Bool) (N : Nat) (t : Nat) : List Nat :=
  (thinkerPass (stops t) N (cursorSeq stops N t)).1

/-! ## Helper lemmas -/

/-- A `Steps` entity whose own state is `Failure` is left untouched by
`steps_system` and spawns nothing. -/
theorem stepsTick_parent_failure (s : StepsState) (h : s.parent = .failure) :
    stepsTick s = ⟨s, false, false⟩ := by
  obtain ⟨p, a, n, c⟩ := s
  simp only at h
  subst h
  rfl

/-- `Score::set` only ever stores a value inside `[0, 1]`. -/
theorem scoreSet_some {v r : ℚ} (h : scoreSet v = some r) : 0 ≤ r ∧ r ≤ 1 := by
  unfold scoreSet at h
  split at h
  · cases h
    assumption
  · cases h

/-- `clamp` into `[0, 1]` always lands in `[0, 1]`. -/
theorem clampVal_unit_mem (v : ℚ) : 0 ≤ clampVal v 0 1 ∧ clampVal v 0 1 ≤ 1 := by
  unfold clampVal
  dsimp only
  split <;> split <;> constructor <;> linarith

/-- Storing a clamped-to-`[0,1]` value through `Score::set` succeeds and
returns the clamped value. -/
theorem scoreSet_clampVal (v : ℚ) :
    scoreSet (clampVal v 0 1) = some (clampVal v 0 1) := by
  unfold scoreSet
  rw [if_pos (clampVal_unit_mem v)]

/-! ## C3 -/

/-- C3: refuted on the code — `WeightedProduct::calculate` initialises its
fold accumulator with `0.0`, so it returns `0` for every input list; in
particular for the single pair `(1, 1)` it returns `0` instead of the
product `1 * 1 = 1` promised by the claim and by the measure's own doc
comment ("multiplies all the elements together"). -/
theorem weightedProduct_always_zero :
    weightedProductCalculate [((1 : ℚ), 1)] = 0 ∧
    (1 : ℚ) * 1 ≠ 0 ∧
    ∀ scores : List (ℚ × ℚ), weightedProductCalculate scores = 0 := by
  refine ⟨by simp [weightedProductCalculate], by norm_num, ?_⟩
  intro scores
  unfold weightedProductCalculate
  induction scores with
  | nil => rfl
  | cons sw rest ih =>
    simpa using ih

/-! ## C4 -/

/-- C4: when a `Steps` composite is `Executing` and its active child is in
`Failure`, `steps_system` sets the composite itself to `Failure`, despawns
the child, spawns nothing, and does not advance the active-step index; from
then on the composite sits in `Failure` and no pass ever spawns (or
requests) a subsequent step. -/
theorem steps_failure_short_circuit (s : StepsState)
    (hp : s.parent = .executing) (hc : s.child = .failure) :
    stepsTick s = ⟨{ s with parent := .failure }, false, true⟩ ∧
    (stepsTick s).state.activeStep = s.activeStep ∧
    ∀ n, stepsIter n { s with parent := ActionState.failure } =
        { s with parent := ActionState.failure } ∧
      (stepsTick (stepsIter n { s with parent := ActionState.failure })).spawnedNext
        = false := by
  obtain ⟨p, a, nn, c⟩ := s
  simp only at hp hc
  subst hp hc
  refine ⟨rfl, rfl, ?_⟩
  intro n
  induction n with
  | zero => exact ⟨rfl, rfl⟩
  | succ n ih =>
    have hstep := stepsTick_parent_failure
      { parent := ActionState.failure, activeStep := a, numSteps := nn,
        child := ActionState.failure } rfl
    constructor
    · show stepsIter n (stepsTick _).state = _
      rw [hstep]
      exact ih.1
    · show (stepsTick (stepsIter n (stepsTick _).state)).spawnedNext = false
      rw [hstep]
      exact ih.2

/-- C4 witness: the `[Success, Failure, Success]` shape — a three-step
`Steps` whose second step (index 1) has failed: the composite reports
`Failure`, despawns the failed child, never spawns the third step, and stays
that way. -/
theorem steps_failure_short_circuit_witness :
    stepsTick ⟨.executing, 1, 3, .failure⟩ =
      ⟨⟨.failure, 1, 3, .failure⟩, false, true⟩ ∧
    stepsIter 5 ⟨.failure, 1, 3, .failure⟩ = ⟨.failure, 1, 3, .failure⟩ ∧
    (stepsTick (stepsIter 5 ⟨.failure, 1, 3, .failure⟩)).spawnedNext = false := by
  have h := steps_failure_short_circuit ⟨.executing, 1, 3, .failure⟩ rfl rfl
  exact ⟨h.1, (h.2.2 5).1, (h.2.2 5).2⟩

/-! ## C10 -/

/-- C10: a `Steps` composite in `Cancelled` whose active child is still in
`Init` is left completely unchanged by `steps_system` (the `Cancelled` arm
only reacts to `Requested`/`Executing`/`Success`/`Failure` children), so
over any number of passes it stays `Cancelled` and never reaches `Success`
or `Failure` on its own. -/
theorem steps_cancelled_init_stuck (s : StepsState)
    (hp : s.parent = .cancelled) (hc : s.child = .init) :
    stepsTick s = ⟨s, false, false⟩ ∧
    ∀ n, stepsIter n s = s ∧ (stepsIter n s).parent = .cancelled ∧
      (stepsIter n s).parent ≠ .success ∧ (stepsIter n s).parent ≠ .failure := by
  obtain ⟨p, a, nn, c⟩ := s
  simp only at hp hc
  subst hp hc
  have hstep : stepsTick ⟨.cancelled, a, nn, .init⟩ =
      ⟨⟨.cancelled, a, nn, .init⟩, false, false⟩ := rfl
  refine ⟨hstep, ?_⟩
  intro n
  induction n with
  | zero => exact ⟨rfl, rfl, by simp [stepsIter], by simp [stepsIter]⟩
  | succ n ih =>
    have : stepsIter (n + 1) ⟨.cancelled, a, nn, .init⟩ =
        stepsIter n ⟨.cancelled, a, nn, .init⟩ := by
      show stepsIter n (stepsTick _).state = _
      rw [hstep]
    rw [this]
    exact ih

/-- C10 witness: a concrete cancelled `Steps` with an `Init` child is inert
for ten passes. -/
theorem steps_cancelled_init_stuck_witness :
    stepsTick ⟨.cancelled, 0, 2, .init⟩ = ⟨⟨.cancelled, 0, 2, .init⟩, false, false⟩ ∧
    stepsIter 10 ⟨.cancelled, 0, 2, .init⟩ = ⟨.cancelled, 0, 2, .init⟩ ∧
    (stepsIter 10 ⟨.cancelled, 0, 2, .init⟩).parent ≠ .success := by
  have h := steps_cancelled_init_stuck ⟨.cancelled, 0, 2, .init⟩ rfl rfl
  exact ⟨h.1, (h.2 10).1, (h.2 10).2.2.1⟩

/-! ## C2 -/

/-- C2 counterexample: with the thinker `Cancelled` and its current action
already in `Failure`, the `Cancelled` arm of `thinker_system` despawns the
action and clears the slot but does NOT adopt the action's terminal state:
the thinker's own state is left at `Cancelled` (a later pass, finding no
current action, then resolves it to `Success`), contradicting the claim
that the thinker adopts the same terminal state. -/
theorem thinker_cancelled_no_adoption :
    (thinkerCancelledTick (some .failure)).despawned = true ∧
    (thinkerCancelledTick (some .failure)).current = none ∧
    ¬(thinkerCancelledTick (some .failure)).thinkerState = .failure := by
  exact ⟨rfl, rfl, by decide⟩

/-- C2 (amended): for a `Cancelled` thinker, one pass behaves as:
a current action in `Requested`, `Executing` (or `Init`) is set to
`Cancelled`; a current action already terminal is despawned and the slot
cleared while the thinker itself stays `Cancelled`, and the following pass
(no current action) resolves the thinker to `Success` regardless of the
action's terminal state; an already-`Cancelled` current action is left
alone; with no current action the thinker resolves to `Success`. -/
theorem thinker_cancelled_arm (cur : Option ActionState) :
    (∀ st, cur = some st → (st = .requested ∨ st = .executing ∨ st = .init) →
      thinkerCancelledTick cur = ⟨.cancelled, some .cancelled, false⟩) ∧
    (∀ st, cur = some st → (st = .success ∨ st = .failure) →
      thinkerCancelledTick cur = ⟨.cancelled, none, true⟩ ∧
      thinkerCancelledTick (thinkerCancelledTick cur).current =
        ⟨.success, none, false⟩) ∧
    (cur = some .cancelled →
      thinkerCancelledTick cur = ⟨.cancelled, some .cancelled, false⟩) ∧
    (cur = none → thinkerCancelledTick cur = ⟨.success, none, false⟩) := by
  refine ⟨?_, ?_, ?_, ?_⟩
  · rintro st rfl (rfl | rfl | rfl) <;> rfl
  · rintro st rfl (rfl | rfl) <;> exact ⟨rfl, rfl⟩
  · rintro rfl
    rfl
  · rintro rfl
    rfl

/-- C2 witness: the amended behaviour at the concrete inputs
`some Failure` (terminal: cleanup now, `Success` next pass), `some
Executing` (propagate `Cancelled`) and `none` (immediate `Success`). -/
theorem thinker_cancelled_arm_witness :
    thinkerCancelledTick (some .failure) = ⟨.cancelled, none, true⟩ ∧
    thinkerCancelledTick (thinkerCancelledTick (some .failure)).current =
      ⟨.success, none, false⟩ ∧
    thinkerCancelledTick (some .executing) = ⟨.cancelled, some .cancelled, false⟩ ∧
    thinkerCancelledTick none = ⟨.success, none, false⟩ := by
  have h := thinker_cancelled_arm (some .failure)
  have h2 := (h.2.1 .failure rfl (Or.inr rfl))
  have h3 := thinker_cancelled_arm (some .executing)
  have h4 := thinker_cancelled_arm none
  exact ⟨h2.1, h2.2, h3.1 .executing rfl (Or.inr (Or.inl rfl)), h4.2.2.2 rfl⟩

/-! ## C7 -/

/-- C7: when the same Choice wins on consecutive ticks — the current
action's builder identity equals the picked builder identity — and the
current action has not reached `Success`/`Failure`, `exec_picked_action`
(called with `override_current = true`, as in the picked-choice path)
leaves the current-action slot untouched (same entity, same builder
identity), spawns and despawns nothing, and does not modify the action's
state except that an action still in `Init` is promoted to `Requested`. -/
theorem exec_picked_same_builder (c : CurrentAction) (pickedId fresh : Nat)
    (hb : c.builderId = pickedId)
    (hs : ¬c.astate = .success) (hf : ¬c.astate = .failure) :
    execPickedAction (some c) pickedId true fresh =
      ⟨some { c with astate := if c.astate = .init then .requested else c.astate },
        false, false⟩ := by
  obtain ⟨e, b, st⟩ := c
  simp only at hb hs hf
  subst hb
  cases st <;> simp_all [execPickedAction]

/-- C7 witness: a continuing `Executing` action is untouched, and an `Init`
action is promoted to `Requested`, at concrete inputs. -/
theorem exec_picked_same_builder_witness :
    execPickedAction (some ⟨5, 3, .executing⟩) 3 true 9 =
      ⟨some ⟨5, 3, .executing⟩, false, false⟩ ∧
    execPickedAction (some ⟨5, 3, .init⟩) 3 true 9 =
      ⟨some ⟨5, 3, .requested⟩, false, false⟩ := by
  have h1 := exec_picked_same_builder ⟨5, 3, .executing⟩ 3 9 rfl
    (by decide) (by decide)
  have h2 := exec_picked_same_builder ⟨5, 3, .init⟩ 3 9 rfl
    (by decide) (by decide)
  exact ⟨by simpa using h1, by simpa using h2⟩

/-! ## C6 -/

/-- C6: every scorer update system stores a value in `[0, 1]`. The six
composite/evaluating systems clamp before storing, so they always store
successfully and the stored value is in range (for any child scores, any
threshold, any user-supplied evaluator or measure); `fixed_score_system`
stores its constant unclamped, but `Score::set` panics (modelled as `none`)
on any value outside `[0, 1]`, so whenever it does store, the stored value
is in range. No update can ever leave a `Score` outside `[0, 1]`. -/
theorem scorer_updates_bounded :
    (∀ v : ℚ, (v < 0 ∨ 1 < v) → scoreSet v = none) ∧
    (∀ v r : ℚ, fixedScoreStore v = some r → 0 ≤ r ∧ r ≤ 1) ∧
    (∀ (t : ℚ) (children : List ℚ), ∃ r,
      allOrNothingStore t children = some r ∧ 0 ≤ r ∧ r ≤ 1) ∧
    (∀ (t : ℚ) (children : List ℚ), ∃ r,
      sumOfScorersStore t children = some r ∧ 0 ≤ r ∧ r ≤ 1) ∧
    (∀ (t : ℚ) (u : Bool) (children : List ℚ), ∃ r,
      productOfScorersStore t u children = some r ∧ 0 ≤ r ∧ r ≤ 1) ∧
    (∀ (t : ℚ) (children : List ℚ), ∃ r,
      winningScorerStore t children = some r ∧ 0 ≤ r ∧ r ≤ 1) ∧
    (∀ (ev : ℚ → ℚ) (inner : ℚ), ∃ r,
      evaluatingScorerStore ev inner = some r ∧ 0 ≤ r ∧ r ≤ 1) ∧
    (∀ (m : List (ℚ × ℚ) → ℚ) (t : ℚ) (children : List (ℚ × ℚ)), ∃ r,
      measuredScorerStore m t children = some r ∧ 0 ≤ r ∧ r ≤ 1) := by
  refine ⟨?_, ?_, ?_, ?_, ?_, ?_, ?_, ?_⟩
  · intro v h
    unfold scoreSet
    rw [if_neg]
    rintro ⟨h1, h2⟩
    rcases h with h | h <;> linarith
  · intro v r h
    exact scoreSet_some h
  · intro t children
    dsimp only [allOrNothingStore]
    exact ⟨_, scoreSet_clampVal _, clampVal_unit_mem _⟩
  · intro t children
    dsimp only [sumOfScorersStore]
    exact ⟨_, scoreSet_clampVal _, clampVal_unit_mem _⟩
  · intro t u children
    dsimp only [productOfScorersStore, productOfScorersCompute]
    exact ⟨_, scoreSet_clampVal _, clampVal_unit_mem _⟩
  · intro t children
    dsimp only [winningScorerStore]
    exact ⟨_, scoreSet_clampVal _, clampVal_unit_mem _⟩
  · intro ev inner
    dsimp only [evaluatingScorerStore]
    exact ⟨_, scoreSet_clampVal _, clampVal_unit_mem _⟩
  · intro m t children
    dsimp only [measuredScorerStore]
    split
    · exact ⟨0, by norm_num [scoreSet], by norm_num, by norm_num⟩
    · exact ⟨_, scoreSet_clampVal _, clampVal_unit_mem _⟩

/-- C6 witness: `Score::set` refuses `2` (out of range), a fixed score of
`1/2` is stored in range, and the sum-of-scorers update at a concrete input
stores an in-range value. -/
theorem scorer_updates_bounded_witness :
    scoreSet (2 : ℚ) = none ∧ ((0 : ℚ) ≤ 1 / 2 ∧ (1 / 2 : ℚ) ≤ 1) ∧
    ∃ r, sumOfScorersStore 0 [(1 : ℚ) / 4, 1 / 4] = some r ∧ 0 ≤ r ∧ r ≤ 1 := by
  have h := scorer_updates_bounded
  refine ⟨h.1 2 (by norm_num), ?_, h.2.2.2.1 0 [(1 : ℚ) / 4, 1 / 4]⟩
  exact h.2.1 (1 / 2) (1 / 2) (by norm_num [fixedScoreStore, scoreSet])

/-! ## C8 -/

/-- C8: `product_of_scorers_system` with compensation on, over exactly the
two child scores `1/2` and `1/2` and any threshold at most the result:
the raw product is `1/4`, the compensated value is
`product + (1 - product) * (1 - 1/n) * product = 11/32 = 0.34375`, strictly
above the uncompensated product `1/4` and at most `1`, and that value is
what gets stored. -/
theorem product_compensation_half_half (threshold : ℚ)
    (ht : threshold ≤ 11 / 32) :
    productOfScorersCompute threshold true [1 / 2, 1 / 2] = 11 / 32 ∧
    productOfScorersStore threshold true [1 / 2, 1 / 2] = some (11 / 32) ∧
    ((1 : ℚ) / 4 < 11 / 32 ∧ (11 / 32 : ℚ) ≤ 1) ∧
    (11 / 32 : ℚ) = 1 / 4 + (1 - 1 / 4) * (1 - 1 / 2) * (1 / 4) := by
  have hc : productOfScorersCompute threshold true [1 / 2, 1 / 2] = 11 / 32 := by
    simp only [productOfScorersCompute, List.foldl, List.length]
    norm_num
    rw [if_neg (by linarith : ¬((11 : ℚ) / 32 < threshold))]
    unfold clampVal
    norm_num
  refine ⟨hc, ?_, by norm_num, by norm_num⟩
  unfold productOfScorersStore
  rw [hc]
  norm_num [scoreSet]

/-- C8 witness: the theorem at threshold `0`. -/
theorem product_compensation_half_half_witness :
    productOfScorersCompute 0 true [1 / 2, 1 / 2] = 11 / 32 ∧
    productOfScorersStore 0 true [1 / 2, 1 / 2] = some (11 / 32) := by
  have h := product_compensation_half_half 0 (by norm_num)
  exact ⟨h.1, h.2.1⟩

end BigBrain

namespace BigBrain

theorem concExecLoop_nil (i : Nat) (a : Bool) (fi : Option Nat) :
    concExecLoop [] i a fi = ([], a, fi) := rfl

theorem concExecLoop_cons_failure (rest : List ActionState) (i : Nat) (a : Bool)
    (fi : Option Nat) :
    concExecLoop (.failure :: rest) i a fi =
      (.failure :: (concExecLoop rest (i + 1) false (some i)).1,
       (concExecLoop rest (i + 1) false (some i)).2) := rfl

theorem concExecLoop_cons_success (rest : List ActionState) (i : Nat) (a : Bool)
    (fi : Option Nat) :
    concExecLoop (.success :: rest) i a fi =
      (.success :: (concExecLoop rest (i + 1) a fi).1,
       (concExecLoop rest (i + 1) a fi).2) := rfl

theorem concExecLoop_cons_executing (rest : List ActionState) (i : Nat) (a : Bool)
    (fi : Option Nat) :
    concExecLoop (.executing :: rest) i a fi =
      ((if fi.isSome then ActionState.cancelled else .executing) ::
        (concExecLoop rest (i + 1) false fi).1,
       (concExecLoop rest (i + 1) false fi).2) := rfl

theorem concExecLoop_cons_init (rest : List ActionState) (i : Nat) (a : Bool)
    (fi : Option Nat) :
    concExecLoop (.init :: rest) i a fi =
      ((if fi.isSome then ActionState.cancelled else .init) ::
        (concExecLoop rest (i + 1) false fi).1,
       (concExecLoop rest (i + 1) false fi).2) := rfl

theorem concExecLoop_cons_requested (rest : List ActionState) (i : Nat) (a : Bool)
    (fi : Option Nat) :
    concExecLoop (.requested :: rest) i a fi =
      ((if fi.isSome then ActionState.cancelled else .requested) ::
        (concExecLoop rest (i + 1) false fi).1,
       (concExecLoop rest (i + 1) false fi).2) := rfl

theorem concExecLoop_cons_cancelled (rest : List ActionState) (i : Nat) (a : Bool)
    (fi : Option Nat) :
    concExecLoop (.cancelled :: rest) i a fi =
      ((if fi.isSome then ActionState.cancelled else .cancelled) ::
        (concExecLoop rest (i + 1) false fi).1,
       (concExecLoop rest (i + 1) false fi).2) := rfl

end BigBrain

namespace BigBrain

theorem cancelNonTerminal_idem (s : ActionState) :
    cancelNonTerminal (cancelNonTerminal s) = cancelNonTerminal s := by
  cases s <;> rfl

theorem map_cancelNonTerminal_idem (l : List ActionState) :
    (l.map cancelNonTerminal).map cancelNonTerminal = l.map cancelNonTerminal := by
  induction l with
  | nil => rfl
  | cons s rest ih => simp [cancelNonTerminal_idem, ih]

theorem concExecLoop_fi_some (l : List ActionState) : ∀ i k, k < i →
    ∃ k', concExecLoop l i false (some k) =
      (l.map cancelNonTerminal, false, some k') ∧ k ≤ k' := by
  induction l with
  | nil => exact fun i k hk => ⟨k, rfl, le_refl k⟩
  | cons s rest ih =>
    intro i k hk
    cases s with
    | failure =>
      obtain ⟨k', hr, hk'⟩ := ih (i + 1) i (Nat.lt_succ_self i)
      refine ⟨k', ?_, le_of_lt (lt_of_lt_of_le hk hk')⟩
      rw [concExecLoop_cons_failure, hr]
      rfl
    | success =>
      obtain ⟨k', hr, hk'⟩ := ih (i + 1) k (Nat.lt_succ_of_lt hk)
      refine ⟨k', ?_, hk'⟩
      rw [concExecLoop_cons_success, hr]
      rfl
    | init =>
      obtain ⟨k', hr, hk'⟩ := ih (i + 1) k (Nat.lt_succ_of_lt hk)
      refine ⟨k', ?_, hk'⟩
      rw [concExecLoop_cons_init, hr]
      rfl
    | requested =>
      obtain ⟨k', hr, hk'⟩ := ih (i + 1) k (Nat.lt_succ_of_lt hk)
      refine ⟨k', ?_, hk'⟩
      rw [concExecLoop_cons_requested, hr]
      rfl
    | executing =>
      obtain ⟨k', hr, hk'⟩ := ih (i + 1) k (Nat.lt_succ_of_lt hk)
      refine ⟨k', ?_, hk'⟩
      rw [concExecLoop_cons_executing, hr]
      rfl
    | cancelled =>
      obtain ⟨k', hr, hk'⟩ := ih (i + 1) k (Nat.lt_succ_of_lt hk)
      refine ⟨k', ?_, hk'⟩
      rw [concExecLoop_cons_cancelled, hr]
      rfl

theorem concExecLoop_split (post : List ActionState) :
    ∀ (pre : List ActionState), ActionState.failure ∉ pre → ∀ i allS,
    ∃ k', concExecLoop (pre ++ .failure :: post) i allS none =
      (pre ++ .failure :: post.map cancelNonTerminal, false, some k') ∧
      pre.length + i ≤ k' := by
  intro pre
  induction pre with
  | nil =>
    intro _ i allS
    obtain ⟨k', hr, hk'⟩ := concExecLoop_fi_some post (i + 1) i (Nat.lt_succ_self i)
    refine ⟨k', ?_, by simpa using hk'⟩
    rw [List.nil_append, concExecLoop_cons_failure, hr]
    rfl
  | cons p pre' ih =>
    intro hnf i allS
    have hp : p ≠ ActionState.failure := fun h => hnf (by simp [h])
    have hnf' : ActionState.failure ∉ pre' := fun h => hnf (List.mem_cons_of_mem _ h)
    have harith : ∀ k', pre'.length + (i + 1) ≤ k' → (p :: pre').length + i ≤ k' := by
      intro k' h
      simp only [List.length_cons]
      omega
    cases p with
    | failure => exact absurd rfl hp
    | success =>
      obtain ⟨k', hr, hk'⟩ := ih hnf' (i + 1) allS
      refine ⟨k', ?_, harith k' hk'⟩
      rw [List.cons_append, concExecLoop_cons_success, hr]
      rfl
    | init =>
      obtain ⟨k', hr, hk'⟩ := ih hnf' (i + 1) false
      refine ⟨k', ?_, harith k' hk'⟩
      rw [List.cons_append, concExecLoop_cons_init, hr]
      rfl
    | requested =>
      obtain ⟨k', hr, hk'⟩ := ih hnf' (i + 1) false
      refine ⟨k', ?_, harith k' hk'⟩
      rw [List.cons_append, concExecLoop_cons_requested, hr]
      rfl
    | executing =>
      obtain ⟨k', hr, hk'⟩ := ih hnf' (i + 1) false
      refine ⟨k', ?_, harith k' hk'⟩
      rw [List.cons_append, concExecLoop_cons_executing, hr]
      rfl
    | cancelled =>
      obtain ⟨k', hr, hk'⟩ := ih hnf' (i + 1) false
      refine ⟨k', ?_, harith k' hk'⟩
      rw [List.cons_append, concExecLoop_cons_cancelled, hr]
      rfl

end BigBrain

namespace BigBrain

theorem take_map_drop_cancel (rest : List ActionState) :
    ∀ (pre : List ActionState) (m : Nat), pre.length ≤ m →
    ((pre ++ rest.map cancelNonTerminal).take m).map cancelNonTerminal ++
      (pre ++ rest.map cancelNonTerminal).drop m =
    (pre ++ rest).map cancelNonTerminal := by
  intro pre
  induction pre with
  | nil =>
    intro m _
    simp only [List.nil_append]
    rw [List.map_take, map_cancelNonTerminal_idem, List.take_append_drop]
  | cons p pre' ih =>
    intro m hm
    cases m with
    | zero => simp at hm
    | succ m' =>
      simp only [List.cons_append, List.take_succ_cons, List.drop_succ_cons,
        List.map_cons]
      rw [ih m' (by simpa using hm)]

theorem exists_first_split {a : ActionState} {l : List ActionState} (h : a ∈ l) :
    ∃ s t, l = s ++ a :: t ∧ a ∉ s := by
  induction l with
  | nil => cases h
  | cons x l' ih =>
    by_cases hx : x = a
    · exact ⟨[], l', by rw [hx]; rfl, List.not_mem_nil a⟩
    · have h' : a ∈ l' := by
        rcases List.mem_cons.mp h with h | h
        · exact absurd h.symm hx
        · exact h
      obtain ⟨s, t, hst, hns⟩ := ih h'
      refine ⟨x :: s, t, by rw [hst]; rfl, ?_⟩
      intro hmem
      rcases List.mem_cons.mp hmem with h | h
      · exact hx h.symm
      · exact hns h

end BigBrain

namespace BigBrain

theorem concCancLoop_nil (ad af : Bool) : concCancLoop [] ad af = ([], ad, af) := rfl

theorem concCancLoop_cons_init (rest : List ActionState) (ad af : Bool) :
    concCancLoop (.init :: rest) ad af =
      (.init :: (concCancLoop rest ad af).1, (concCancLoop rest ad af).2) := rfl

theorem concCancLoop_cons_success (rest : List ActionState) (ad af : Bool) :
    concCancLoop (.success :: rest) ad af =
      (.success :: (concCancLoop rest ad af).1, (concCancLoop rest ad af).2) := rfl

theorem concCancLoop_cons_failure (rest : List ActionState) (ad af : Bool) :
    concCancLoop (.failure :: rest) ad af =
      (.failure :: (concCancLoop rest ad true).1, (concCancLoop rest ad true).2) := rfl

theorem concCancLoop_cons_requested (rest : List ActionState) (ad af : Bool) :
    concCancLoop (.requested :: rest) ad af =
      (.cancelled :: (concCancLoop rest false af).1, (concCancLoop rest false af).2) := rfl

theorem concCancLoop_cons_executing (rest : List ActionState) (ad af : Bool) :
    concCancLoop (.executing :: rest) ad af =
      (.cancelled :: (concCancLoop rest false af).1, (concCancLoop rest false af).2) := rfl

theorem concCancLoop_cons_cancelled (rest : List ActionState) (ad af : Bool) :
    concCancLoop (.cancelled :: rest) ad af =
      (.cancelled :: (concCancLoop rest false af).1, (concCancLoop rest false af).2) := rfl

theorem concCancLoop_spec (l : List ActionState) : ∀ ad af,
    (concCancLoop l ad af).1 = l.map cancelActive ∧
    ((concCancLoop l ad af).2.1 = true ↔
      (ad = true ∧ ∀ c ∈ l, c = .init ∨ c = .success ∨ c = .failure)) ∧
    ((concCancLoop l ad af).2.2 = true ↔
      (af = true ∨ ActionState.failure ∈ l)) := by
  induction l with
  | nil =>
    intro ad af
    refine ⟨rfl, ?_, ?_⟩ <;> simp [concCancLoop_nil]
  | cons s rest ih =>
    intro ad af
    cases s with
    | init =>
      obtain ⟨h1, h2, h3⟩ := ih ad af
      rw [concCancLoop_cons_init]
      refine ⟨by simp [h1, cancelActive], ?_, ?_⟩
      · simp only [h2]
        constructor
        · rintro ⟨had, hall⟩
          refine ⟨had, ?_⟩
          intro c hc
          rcases List.mem_cons.mp hc with rfl | hc
          · exact Or.inl rfl
          · exact hall c hc
        · rintro ⟨had, hall⟩
          exact ⟨had, fun c hc => hall c (List.mem_cons_of_mem _ hc)⟩
      · simp only [h3]
        simp
    | success =>
      obtain ⟨h1, h2, h3⟩ := ih ad af
      rw [concCancLoop_cons_success]
      refine ⟨by simp [h1, cancelActive], ?_, ?_⟩
      · simp only [h2]
        constructor
        · rintro ⟨had, hall⟩
          refine ⟨had, ?_⟩
          intro c hc
          rcases List.mem_cons.mp hc with rfl | hc
          · exact Or.inr (Or.inl rfl)
          · exact hall c hc
        · rintro ⟨had, hall⟩
          exact ⟨had, fun c hc => hall c (List.mem_cons_of_mem _ hc)⟩
      · simp only [h3]
        simp
    | failure =>
      obtain ⟨h1, h2, h3⟩ := ih ad true
      rw [concCancLoop_cons_failure]
      refine ⟨by simp [h1, cancelActive], ?_, ?_⟩
      · simp only [h2]
        constructor
        · rintro ⟨had, hall⟩
          refine ⟨had, ?_⟩
          intro c hc
          rcases List.mem_cons.mp hc with rfl | hc
          · exact Or.inr (Or.inr rfl)
          · exact hall c hc
        · rintro ⟨had, hall⟩
          exact ⟨had, fun c hc => hall c (List.mem_cons_of_mem _ hc)⟩
      · simp only [h3]
        simp
    | requested =>
      obtain ⟨h1, h2, h3⟩ := ih false af
      rw [concCancLoop_cons_requested]
      refine ⟨by simp [h1, cancelActive], ?_, ?_⟩
      · simp only [h2]
        simp
      · simp only [h3]
        simp
    | executing =>
      obtain ⟨h1, h2, h3⟩ := ih false af
      rw [concCancLoop_cons_executing]
      refine ⟨by simp [h1, cancelActive], ?_, ?_⟩
      · simp only [h2]
        simp
      · simp only [h3]
        simp
    | cancelled =>
      obtain ⟨h1, h2, h3⟩ := ih false af
      rw [concCancLoop_cons_cancelled]
      refine ⟨by simp [h1, cancelActive], ?_, ?_⟩
      · simp only [h2]
        simp
      · simp only [h3]
        simp

theorem map_cancelActive_of_settled (l : List ActionState)
    (h : ∀ c ∈ l, c = .init ∨ c = .success ∨ c = .failure) :
    l.map cancelActive = l := by
  induction l with
  | nil => rfl
  | cons s rest ih =>
    have hs := h s (List.mem_cons_self s rest)
    have hrest := ih fun c hc => h c (List.mem_cons_of_mem _ hc)
    rcases hs with rfl | rfl | rfl <;> simp [cancelActive, hrest]

end BigBrain

namespace BigBrain

theorem take_map_drop_cancel2 (pre post : List ActionState) (m : Nat)
    (hm : pre.length ≤ m) :
    ((pre ++ .failure :: post.map cancelNonTerminal).take m).map cancelNonTerminal ++
      (pre ++ .failure :: post.map cancelNonTerminal).drop m =
    (pre ++ .failure :: post).map cancelNonTerminal :=
  take_map_drop_cancel (.failure :: post) pre m hm

theorem conc_exec_failure_cancels (children : List ActionState)
    (hmem : ActionState.failure ∈ children) :
    concExecStep children = (.cancelled, children.map cancelNonTerminal) := by
  obtain ⟨pre, post, rfl, hnf⟩ := exists_first_split hmem
  obtain ⟨k', hr, hk⟩ := concExecLoop_split post pre hnf 0 true
  unfold concExecStep
  rw [hr]
  dsimp only
  rw [take_map_drop_cancel2 pre post k' (by simpa using hk)]
  simp

theorem conc_exec_never_failure (children : List ActionState) :
    (concExecStep children).1 ≠ .failure := by
  unfold concExecStep
  dsimp only
  split
  · simp
  · split <;> simp

theorem conc_canc_settled (children : List ActionState)
    (hall : ∀ c ∈ children, c = .init ∨ c = .success ∨ c = .failure) :
    concCancStep children =
      ((if ActionState.failure ∈ children then .failure else .success), children) := by
  rcases hrr : concCancLoop children true false with ⟨c, ad, af⟩
  obtain ⟨h1, h2, h3⟩ := concCancLoop_spec children true false
  rw [hrr] at h1 h2 h3
  dsimp only at h1 h2 h3
  have had : ad = true := h2.mpr ⟨rfl, hall⟩
  subst had
  have hc : c = children := by
    rw [h1, map_cancelActive_of_settled children hall]
  unfold concCancStep
  rw [hrr]
  dsimp only
  rw [if_pos rfl, hc]
  by_cases hm : ActionState.failure ∈ children
  · have haf : af = true := h3.mpr (Or.inr hm)
    subst haf
    simp [hm]
  · have haf : af = false := by
      cases haf : af
      · rfl
      · rcases h3.mp haf with h | h
        · cases h
        · exact absurd h hm
    subst haf
    simp [hm]

theorem conc_canc_unsettled (children : List ActionState)
    (hex : ∃ c ∈ children, ¬(c = .init ∨ c = .success ∨ c = .failure)) :
    concCancStep children = (.cancelled, children.map cancelActive) := by
  rcases hrr : concCancLoop children true false with ⟨c, ad, af⟩
  obtain ⟨h1, h2, h3⟩ := concCancLoop_spec children true false
  rw [hrr] at h1 h2 h3
  dsimp only at h1 h2 h3
  obtain ⟨c0, hc0, hnc0⟩ := hex
  have had : ad = false := by
    cases had : ad
    · rfl
    · exact absurd ((h2.mp had).2 c0 hc0) hnc0
  subst had
  unfold concCancStep
  rw [hrr]
  dsimp only
  rw [h1]
  simp

end BigBrain

namespace BigBrain

/-- C1: two-phase failure handling of `Concurrently`. From `Executing`,
when any child is in `Failure`, the pass sets every non-terminal child to
`Cancelled` (children already `Success`/`Failure` are kept) and sets the
composite to `Cancelled` — from `Executing` the composite never moves
directly to `Failure`. From `Cancelled`, the composite reaches a terminal
state exactly when every child is in `Init`, `Success` or `Failure`:
it then reports `Failure` iff some child is in `Failure` and `Success`
otherwise; while any child is still `Requested`/`Executing`/`Cancelled`,
the composite stays `Cancelled` (cancelling those children), so it is never
in `Failure` while a child is still winding down. -/
theorem concurrently_two_phase (children : List ActionState) :
    (ActionState.failure ∈ children →
      concurrentStep .executing children =
        (.cancelled, children.map cancelNonTerminal)) ∧
    (concurrentStep .executing children).1 ≠ .failure ∧
    ((∀ c ∈ children, c = .init ∨ c = .success ∨ c = .failure) →
      concurrentStep .cancelled children =
        ((if ActionState.failure ∈ children then .failure else .success), children)) ∧
    ((∃ c ∈ children, ¬(c = .init ∨ c = .success ∨ c = .failure)) →
      concurrentStep .cancelled children =
        (.cancelled, children.map cancelActive)) ∧
    ((concurrentStep .cancelled children).1 = .failure →
      ∀ c ∈ children, c = .init ∨ c = .success ∨ c = .failure) := by
  refine ⟨?_, ?_, ?_, ?_, ?_⟩
  · exact fun h => conc_exec_failure_cancels children h
  · exact conc_exec_never_failure children
  · exact fun h => conc_canc_settled children h
  · exact fun h => conc_canc_unsettled children h
  · intro hfail
    by_cases hall : ∀ c ∈ children, c = .init ∨ c = .success ∨ c = .failure
    · exact hall
    · exfalso
      push_neg at hall
      obtain ⟨c0, hc0, hn1, hn2, hn3⟩ := hall
      have hu := conc_canc_unsettled children ⟨c0, hc0, by tauto⟩
      have : (concurrentStep ActionState.cancelled children).1 = .cancelled := by
        rw [show concurrentStep ActionState.cancelled children = concCancStep children
          from rfl, hu]
      rw [this] at hfail
      cases hfail

/-- C1 witness: one failed and one executing child — the executing sibling
is cancelled and the parent reports `Cancelled`, not `Failure`; once all
children settle, a failed child makes the parent report `Failure`. -/
theorem concurrently_two_phase_witness :
    concurrentStep .executing [.failure, .executing] =
      (.cancelled, [.failure, .cancelled]) ∧
    concurrentStep .cancelled [.failure, .success] =
      (.failure, [.failure, .success]) ∧
    concurrentStep .cancelled [.failure, .executing] =
      (.cancelled, [.failure, .cancelled]) := by
  refine ⟨?_, ?_, ?_⟩
  · have h := (concurrently_two_phase [.failure, .executing]).1 (by simp)
    simpa [cancelNonTerminal] using h
  · have h := (concurrently_two_phase [.failure, .success]).2.2.1 (by decide)
    simpa using h
  · have h := (concurrently_two_phase [.failure, .executing]).2.2.2.1
      ⟨.executing, by simp, by decide⟩
    simpa [cancelActive] using h

end BigBrain

namespace BigBrain

theorem thinkerPassGo_succ (stop : Nat → Bool) (fuel i : Nat) :
    thinkerPassGo stop (fuel + 1) i =
      if (i + 1) % 500 = 0 ∧ stop (i + 1) = true then ([i], i + 1)
      else (i :: (thinkerPassGo stop fuel (i + 1)).1,
            (thinkerPassGo stop fuel (i + 1)).2) := rfl

theorem thinkerPassGo_spec (stop : Nat → Bool) : ∀ fuel i,
    ((thinkerPassGo stop fuel i).2 = 0 →
      (thinkerPassGo stop fuel i).1 = List.range' i fuel) ∧
    ((thinkerPassGo stop fuel i).2 ≠ 0 →
      (thinkerPassGo stop fuel i).1 =
        List.range' i ((thinkerPassGo stop fuel i).2 - i) ∧
      i < (thinkerPassGo stop fuel i).2 ∧
      (thinkerPassGo stop fuel i).2 ≤ i + fuel) := by
  intro fuel
  induction fuel with
  | zero =>
    intro i
    exact ⟨fun _ => rfl, fun h => absurd rfl h⟩
  | succ fuel ih =>
    intro i
    by_cases hc : (i + 1) % 500 = 0 ∧ stop (i + 1) = true
    · have heq : thinkerPassGo stop (fuel + 1) i = ([i], i + 1) := by
        rw [thinkerPassGo_succ, if_pos hc]
      rw [heq]
      constructor
      · intro h
        cases h
      · intro _
        refine ⟨?_, Nat.lt_succ_self i, by omega⟩
        simp [List.range']
    · have heq : thinkerPassGo stop (fuel + 1) i =
          (i :: (thinkerPassGo stop fuel (i + 1)).1,
           (thinkerPassGo stop fuel (i + 1)).2) := by
        rw [thinkerPassGo_succ, if_neg hc]
      obtain ⟨h0, hn⟩ := ih (i + 1)
      rw [heq]
      constructor
      · intro h
        dsimp only at h
        rw [h0 h]
        rfl
      · intro h
        dsimp only at h ⊢
        obtain ⟨hl, hlt, hle⟩ := hn h
        refine ⟨?_, by omega, by omega⟩
        rw [hl]
        have hr : (thinkerPassGo stop fuel (i + 1)).2 - i
            = ((thinkerPassGo stop fuel (i + 1)).2 - (i + 1)) + 1 := by omega
        rw [hr]
        rw [List.range'_succ]

end BigBrain

namespace BigBrain

theorem thinker_coverage (stops : Nat → Nat → Bool) (N : Nat) :
    ∀ d t j, N - cursorSeq stops N t ≤ d → cursorSeq stops N t ≤ j → j < N →
      ∃ t', j ∈ visitedAt stops N t' := by
  intro d
  induction d with
  | zero =>
    intro t j hd hcj hjN
    omega
  | succ d ih =>
    intro t j hd hcj hjN
    have hcN : cursorSeq stops N t < N := lt_of_le_of_lt hcj hjN
    obtain ⟨h0, hn⟩ :=
      thinkerPassGo_spec (stops t) (N - cursorSeq stops N t) (cursorSeq stops N t)
    by_cases hz :
        (thinkerPassGo (stops t) (N - cursorSeq stops N t) (cursorSeq stops N t)).2 = 0
    · refine ⟨t, ?_⟩
      show j ∈ (thinkerPassGo (stops t) (N - cursorSeq stops N t)
        (cursorSeq stops N t)).1
      rw [h0 hz]
      rw [List.mem_range'_1]
      omega
    · obtain ⟨hl, hlt, hle⟩ := hn hz
      by_cases hjlt :
          j < (thinkerPassGo (stops t) (N - cursorSeq stops N t) (cursorSeq stops N t)).2
      · refine ⟨t, ?_⟩
        show j ∈ (thinkerPassGo (stops t) (N - cursorSeq stops N t)
          (cursorSeq stops N t)).1
        rw [hl]
        rw [List.mem_range'_1]
        omega
      · have hnext : cursorSeq stops N (t + 1) =
            (thinkerPassGo (stops t) (N - cursorSeq stops N t)
              (cursorSeq stops N t)).2 := rfl
        apply ih (t + 1) j
        · rw [hnext]
          omega
        · rw [hnext]
          omega
        · exact hjN

/-- C9: budget resumption of `thinker_system`. When an invocation with
cursor `i` over `N` Thinkers returns early (nonzero cursor left behind), it
has visited exactly the contiguous block of Thinkers from `i` up to the new
cursor, so the cursor equals the count of Thinkers already visited and the
next tick (which skips that many) resumes at the first unvisited Thinker;
the cursor is reset to `0` only when the pass visits every remaining
Thinker. Consequently, whatever the wall-clock behaviour on each tick,
every one of the `N` Thinkers is visited on some tick. -/
theorem thinker_budget_resumption (stops : Nat → Nat → Bool) (N : Nat) :
    (∀ (stop : Nat → Bool) (i : Nat), i ≤ N →
      ((thinkerPass stop N i).2 ≠ 0 →
        (thinkerPass stop N i).1 =
          List.range' i ((thinkerPass stop N i).2 - i) ∧
        i < (thinkerPass stop N i).2 ∧ (thinkerPass stop N i).2 ≤ N) ∧
      ((thinkerPass stop N i).2 = 0 →
        (thinkerPass stop N i).1 = List.range' i (N - i))) ∧
    (∀ j, j < N → ∃ t, j ∈ visitedAt stops N t) := by
  constructor
  · intro stop i hiN
    unfold thinkerPass
    obtain ⟨h0, hn⟩ := thinkerPassGo_spec stop (N - i) i
    constructor
    · intro h
      obtain ⟨ha, hb, hc⟩ := hn h
      exact ⟨ha, hb, by omega⟩
    · exact h0
  · intro j hj
    exact thinker_coverage stops N N 0 j (by omega) (Nat.zero_le j) hj

/-- C9 witness: with two Thinkers and a budget that never interrupts,
Thinker `1` is eventually visited. -/
theorem thinker_budget_resumption_witness :
    (1 < 2) ∧ ∃ t, 1 ∈ visitedAt (fun _ _ => false) 2 t :=
  ⟨by omega, (thinker_budget_resumption (fun _ _ => false) 2).2 1 (by omega)⟩

end BigBrain

namespace BigBrain

theorem getD_mem_of_lt (l : List ℚ) (k : Nat) (hk : k < l.length) :
    l.getD k 0 ∈ l := by
  rw [List.getD_eq_getElem l 0 hk]
  exact List.getElem_mem hk

theorem highestAux_cons (s : ℚ) (rest : List ℚ) (i : Nat) (m : ℚ)
    (acc : Option Nat) :
    highestAux (s :: rest) i m acc =
      if s ≤ m ∨ s ≤ 0 then highestAux rest (i + 1) m acc
      else highestAux rest (i + 1) s (some i) := rfl

theorem highestAux_of_all_le (l : List ℚ) : ∀ (i : Nat) (m : ℚ) (acc : Option Nat),
    0 ≤ m → (∀ s ∈ l, s ≤ m) → highestAux l i m acc = acc := by
  induction l with
  | nil => intro i m acc _ _; rfl
  | cons s rest ih =>
    intro i m acc hm hall
    have hs : s ≤ m := hall s (List.mem_cons_self s rest)
    rw [highestAux_cons, if_pos (Or.inl hs)]
    exact ih (i + 1) m acc hm fun t ht => hall t (List.mem_cons_of_mem _ ht)

theorem highestAux_of_exists_gt (l : List ℚ) :
    ∀ (i : Nat) (m : ℚ) (acc : Option Nat), 0 ≤ m → (∃ s ∈ l, m < s) →
    ∃ j, j < l.length ∧ highestAux l i m acc = some (i + j) ∧ m < l.getD j 0 ∧
      (∀ k, k < l.length → l.getD k 0 ≤ l.getD j 0) ∧
      (∀ k, k < j → l.getD k 0 < l.getD j 0) := by
  induction l with
  | nil =>
    rintro i m acc _ ⟨s, hs, _⟩
    cases hs
  | cons s rest ih =>
    intro i m acc hm hex
    by_cases hs : s ≤ m
    · have hex' : ∃ t ∈ rest, m < t := by
        obtain ⟨t, ht, hmt⟩ := hex
        rcases List.mem_cons.mp ht with rfl | ht
        · exact absurd hs (not_le.mpr hmt)
        · exact ⟨t, ht, hmt⟩
      obtain ⟨j', hjlen, hres, hgt, hmax, hfirst⟩ := ih (i + 1) m acc hm hex'
      refine ⟨j' + 1, Nat.succ_lt_succ hjlen, ?_, ?_, ?_, ?_⟩
      · rw [highestAux_cons, if_pos (Or.inl hs), hres]
        rw [show i + 1 + j' = i + (j' + 1) from by omega]
      · rw [List.getD_cons_succ]
        exact hgt
      · intro k hk
        cases k with
        | zero =>
          rw [List.getD_cons_zero, List.getD_cons_succ]
          exact le_trans hs (le_of_lt hgt)
        | succ k =>
          rw [List.getD_cons_succ, List.getD_cons_succ]
          exact hmax k (Nat.lt_of_succ_lt_succ hk)
      · intro k hk
        cases k with
        | zero =>
          rw [List.getD_cons_zero, List.getD_cons_succ]
          exact lt_of_le_of_lt hs hgt
        | succ k =>
          rw [List.getD_cons_succ, List.getD_cons_succ]
          exact hfirst k (Nat.lt_of_succ_lt_succ hk)
    · have hms : m < s := not_le.mp hs
      have h0s : 0 < s := lt_of_le_of_lt hm hms
      have hcond : ¬(s ≤ m ∨ s ≤ 0) := by
        rintro (h | h)
        · exact hs h
        · linarith
      rw [highestAux_cons, if_neg hcond]
      by_cases hr : ∀ t ∈ rest, t ≤ s
      · rw [highestAux_of_all_le rest (i + 1) s (some i) (le_of_lt h0s) hr]
        refine ⟨0, Nat.succ_pos _, by rw [Nat.add_zero], ?_, ?_, ?_⟩
        · rw [List.getD_cons_zero]
          exact hms
        · intro k hk
          cases k with
          | zero => exact le_refl _
          | succ k =>
            rw [List.getD_cons_zero, List.getD_cons_succ]
            exact hr _ (getD_mem_of_lt rest k (Nat.lt_of_succ_lt_succ hk))
        · intro k hk
          cases hk
      · push_neg at hr
        obtain ⟨j', hjlen, hres, hgt, hmax, hfirst⟩ :=
          ih (i + 1) s (some i) (le_of_lt h0s) hr
        refine ⟨j' + 1, Nat.succ_lt_succ hjlen, ?_, ?_, ?_, ?_⟩
        · rw [hres]
          rw [show i + 1 + j' = i + (j' + 1) from by omega]
        · rw [List.getD_cons_succ]
          exact lt_trans hms hgt
        · intro k hk
          cases k with
          | zero =>
            rw [List.getD_cons_zero, List.getD_cons_succ]
            exact le_of_lt hgt
          | succ k =>
            rw [List.getD_cons_succ, List.getD_cons_succ]
            exact hmax k (Nat.lt_of_succ_lt_succ hk)
        · intro k hk
          cases k with
          | zero =>
            rw [List.getD_cons_zero, List.getD_cons_succ]
            exact hgt
          | succ k =>
            rw [List.getD_cons_succ, List.getD_cons_succ]
            exact hfirst k (Nat.lt_of_succ_lt_succ hk)

end BigBrain

namespace BigBrain

/-- C5: `Highest::pick` returns `none` when every score is at most `0`;
and it returns index `j` exactly when `j` is in range, the score at `j` is
strictly positive, no score exceeds it, and every earlier choice scores
strictly less — i.e. the choice with the strictly highest positive score,
ties broken in favour of the earliest in authoring order. -/
theorem highest_pick_spec (scores : List ℚ) :
    ((∀ s ∈ scores, s ≤ 0) → highestPick scores = none) ∧
    (∀ j, highestPick scores = some j ↔
      (j < scores.length ∧ 0 < scores.getD j 0 ∧
       (∀ k, k < scores.length → scores.getD k 0 ≤ scores.getD j 0) ∧
       (∀ k, k < j → scores.getD k 0 < scores.getD j 0))) := by
  have hnone : (∀ s ∈ scores, s ≤ 0) → highestPick scores = none :=
    fun h => highestAux_of_all_le scores 0 0 none (le_refl 0) h
  refine ⟨hnone, ?_⟩
  intro j
  constructor
  · intro hj
    by_cases hall : ∀ s ∈ scores, s ≤ 0
    · rw [hnone hall] at hj
      cases hj
    · push_neg at hall
      obtain ⟨s, hs, h0s⟩ := hall
      obtain ⟨j0, hlen, hres, h0, hmax, hfirst⟩ :=
        highestAux_of_exists_gt scores 0 0 none (le_refl 0) ⟨s, hs, h0s⟩
      unfold highestPick at hj
      rw [hres] at hj
      have : j = j0 := by
        have := Option.some.inj hj.symm
        omega
      subst this
      exact ⟨hlen, h0, hmax, hfirst⟩
  · rintro ⟨hjlen, hjpos, hjmax, hjfirst⟩
    have hmem : scores.getD j 0 ∈ scores := getD_mem_of_lt scores j hjlen
    obtain ⟨j0, hlen, hres, h0, hmax, hfirst⟩ :=
      highestAux_of_exists_gt scores 0 0 none (le_refl 0) ⟨_, hmem, hjpos⟩
    unfold highestPick
    rw [hres]
    have heq : scores.getD j 0 = scores.getD j0 0 :=
      le_antisymm (hmax j hjlen) (hjmax j0 hlen)
    have hjj : j = j0 := by
      rcases lt_trichotomy j j0 with h | h | h
      · have := hfirst j h
        linarith
      · exact h
      · have := hjfirst j0 h
        linarith
    rw [hjj]
    rw [Nat.zero_add]

/-- C5 witness: for scores `[0.5, 0.5, 0.9, 0.9]` the pick is index `2`
(the first of the two tied maxima), and with no positive score the pick is
`none`. -/
theorem highest_pick_witness :
    highestPick [(1 : ℚ) / 2, 1 / 2, 9 / 10, 9 / 10] = some 2 ∧
    highestPick [(0 : ℚ), -(1 : ℚ) / 2] = none := by
  constructor
  · apply ((highest_pick_spec [(1 : ℚ) / 2, 1 / 2, 9 / 10, 9 / 10]).2 2).mpr
    refine ⟨by norm_num, ?_, ?_, ?_⟩
    · norm_num [List.getD_cons_succ, List.getD_cons_zero]
    · intro k hk
      simp only [List.length_cons, List.length_nil] at hk
      interval_cases k <;>
        simp [List.getD_cons_succ, List.getD_cons_zero] <;> norm_num
    · intro k hk
      interval_cases k <;>
        simp [List.getD_cons_succ, List.getD_cons_zero] <;> norm_num
  · apply (highest_pick_spec [(0 : ℚ), -(1 : ℚ) / 2]).1
    intro s hs
    rcases List.mem_cons.mp hs with rfl | hs
    · exact le_refl 0
    · rcases List.mem_cons.mp hs with rfl | hs
      · norm_num
      · cases hs

end BigBrain
